import Mathlib

/-!
# Verification of the Minesweeper board engine

A shallow embedding of `src/minesweeper-Game.cpp` (class `Minesweeper` and the
free function `getDifficultySettings`), together with theorems settling the
frozen behavioural claims about it.

Modelling conventions:
* C++ `int` values are modelled as `ℤ` (the program never relies on overflow).
* The three parallel `vector<vector<...>>` grids are modelled as total
  functions `ℤ × ℤ → _`; the code only ever reads or writes in-bounds
  positions (every access is guarded by `isValid`, or by loop bounds, or by
  `rand() % rows` / `rand() % cols`), so values outside the board rectangle
  are irrelevant and untouched.
* The C library `rand()` is modelled as an arbitrary stream `ℕ → ℕ` of
  non-negative values; call `i` of the program consumes stream position `i`.
* The recursive flood fill `revealCell` is defined with an explicit fuel
  equal to the number of valid unrevealed cells; `revealFuel_fuel_irrelevant`
  below shows the result is the same for every fuel at least that large, so
  this captures the (terminating) C++ recursion exactly.
-/

/-- The per-cell x-offsets of the 8 neighbours, `int dx[8]` in the source. -/
def dxs : List ℤ := [-1, -1, -1, 0, 0, 1, 1, 1]

/-- The per-cell y-offsets of the 8 neighbours, `int dy[8]` in the source. -/
def dys : List ℤ := [-1, 0, 1, -1, 1, -1, 0, 1]

/-- The 8 direction vectors, in the order the loops `for k = 0..7` use them. -/
def directions : List (ℤ × ℤ) := dxs.zip dys

/-- Bounds check on a position, `Minesweeper::isValid` with the dimensions
passed explicitly (used both before and after construction). -/
def validPos (rows cols x y : ℤ) : Prop :=
  0 ≤ x ∧ x < rows ∧ 0 ≤ y ∧ y < cols

instance (rows cols x y : ℤ) : Decidable (validPos rows cols x y) := by
  unfold validPos; infer_instance

/-- The board rectangle as a finite set of positions. -/
def board (rows cols : ℤ) : Finset (ℤ × ℤ) :=
  Finset.Ico 0 rows ×ˢ Finset.Ico 0 cols

/-- The board rectangle as a list in row-major order, mirroring the
`for i < rows / for j < cols` double loops of the source. -/
def cellsList (rows cols : ℤ) : List (ℤ × ℤ) :=
  (List.range rows.toNat).flatMap fun (i : ℕ) =>
    (List.range cols.toNat).map fun (j : ℕ) => ((i : ℤ), (j : ℤ))

/-- Two distinct positions within Chebyshev distance 1: the "8 adjacent
cells (including diagonals)" relation the direction arrays enumerate. -/
def isAdjacent (a b : ℤ × ℤ) : Prop :=
  a ≠ b ∧ |b.1 - a.1| ≤ 1 ∧ |b.2 - a.2| ≤ 1

instance (a b : ℤ × ℤ) : Decidable (isAdjacent a b) := by
  unfold isAdjacent; infer_instance

/-- State of `class Minesweeper`: dimensions, mine total, the three parallel
grids (`grid`: `-1` = mine, `0..8` = adjacent-mine number), and the two
end-of-game flags. -/
structure Minesweeper where
  rows : ℤ
  cols : ℤ
  totalMines : ℤ
  grid : ℤ × ℤ → ℤ
  revealed : ℤ × ℤ → Bool
  flagged : ℤ × ℤ → Bool
  gameOver : Bool
  gameWon : Bool

/-- `Minesweeper::isValid(x, y)`. -/
def Minesweeper.isValid (s : Minesweeper) (x y : ℤ) : Prop :=
  validPos s.rows s.cols x y

instance (s : Minesweeper) (x y : ℤ) : Decidable (s.isValid x y) := by
  unfold Minesweeper.isValid; infer_instance

/-- Number of valid positions not yet revealed; the termination measure of
the flood fill (each recursive call reveals a fresh valid cell first). -/
def unrevealedCount (s : Minesweeper) : ℕ :=
  ((board s.rows s.cols).filter fun c => s.revealed c = false).card

/-- `revealed[x][y] = true;`. -/
def markRevealed (s : Minesweeper) (x y : ℤ) : Minesweeper :=
  { s with revealed := Function.update s.revealed (x, y) true }

/-- `Minesweeper::revealCell`, with explicit fuel: guard
`!isValid || revealed || flagged`, mark revealed, lose on a mine, and on a
zero cell fold the recursive call over the 8 directions in order. -/
def revealFuel : ℕ → Minesweeper → ℤ → ℤ → Minesweeper
  | 0, s, _, _ => s
  | f + 1, s, x, y =>
    if ¬ s.isValid x y ∨ s.revealed (x, y) = true ∨ s.flagged (x, y) = true then
      s
    else if s.grid (x, y) = -1 then
      { markRevealed s x y with gameOver := true }
    else if s.grid (x, y) = 0 then
      directions.foldl (fun acc d => revealFuel f acc (x + d.1) (y + d.2)) (markRevealed s x y)
    else
      markRevealed s x y

/-- `Minesweeper::revealCell(x, y)`: the flood fill run with enough fuel
(`revealFuel_fuel_irrelevant` shows any fuel ≥ `unrevealedCount s` gives the
same state, so this is the C++ recursion). -/
def revealCell (s : Minesweeper) (x y : ℤ) : Minesweeper :=
  revealFuel (unrevealedCount s) s x y

/-- `Minesweeper::toggleFlag(x, y)`. -/
def toggleFlag (s : Minesweeper) (x y : ℤ) : Minesweeper :=
  if ¬ s.isValid x y ∨ s.revealed (x, y) = true then s
  else { s with flagged := Function.update s.flagged (x, y) (! s.flagged (x, y)) }

/-- `Minesweeper::checkWin`: count revealed non-mine cells (the loop also
counts `correctFlags`, a dead local that never influences anything); if the
count equals `rows*cols - totalMines`, set `gameWon` and return true. -/
def checkWin (s : Minesweeper) : Minesweeper × Bool :=
  let revealedCount : ℤ :=
    (cellsList s.rows s.cols).foldl
      (fun n c => if s.revealed c = true ∧ s.grid c ≠ -1 then n + 1 else n) 0
  let _correctFlags : ℤ :=
    (cellsList s.rows s.cols).foldl
      (fun n c => if s.flagged c = true ∧ s.grid c = -1 then n + 1 else n) 0
  if revealedCount = s.rows * s.cols - s.totalMines then
    ({ s with gameWon := true }, true)
  else
    (s, false)

/-- `Minesweeper::isGameOver()` — returns the `gameOver` flag only. -/
def isGameOver (s : Minesweeper) : Bool := s.gameOver

/-- `Minesweeper::isGameWon()`. -/
def isGameWon (s : Minesweeper) : Bool := s.gameWon

/-- The specification's abstract game status. -/
inductive GameStatus where
  | InProgress : GameStatus
  | Won : GameStatus
  | Lost : GameStatus
deriving DecidableEq

/-- The abstract status read off the two flags. The priority (`gameWon`
first) follows the end-of-game branch of `playGame`, which congratulates the
player whenever `gameWon` is set. -/
def status (s : Minesweeper) : GameStatus :=
  if s.gameWon then .Won else if s.gameOver then .Lost else .InProgress

/-- One iteration of the `while (minesPlaced < totalMines)` loop of
`Minesweeper::placeMines`: state is (grid, minesPlaced); iteration `n`
consumes stream positions `2n` (for `x`) and `2n+1` (for `y`). -/
def placeState (rows cols totalMines : ℤ) (rnd : ℕ → ℕ) : ℕ → (ℤ × ℤ → ℤ) × ℕ
  | 0 => (fun _ => 0, 0)
  | n + 1 =>
    let st := placeState rows cols totalMines rnd n
    if (st.2 : ℤ) < totalMines then
      let x : ℤ := (rnd (2 * n) : ℤ) % rows
      let y : ℤ := (rnd (2 * n + 1) : ℤ) % cols
      if st.1 (x, y) ≠ -1 then
        (Function.update st.1 (x, y) (-1), st.2 + 1)
      else
        st
    else
      st

/-- The mine-placement loop has terminated: the guard `minesPlaced <
totalMines` is closed at some iteration. -/
def placeTerminates (rows cols totalMines : ℤ) (rnd : ℕ → ℕ) : Prop :=
  ∃ n, ((placeState rows cols totalMines rnd n).2 : ℤ) = totalMines

/-- `Minesweeper::calculateNumbers`, inner count: fold over the 8 directions
adding 1 for each in-bounds mine neighbour, exactly the `for k = 0..7` loop. -/
def calcCell (rows cols : ℤ) (g : ℤ × ℤ → ℤ) (i j : ℤ) : ℤ :=
  directions.foldl
    (fun count d =>
      if validPos rows cols (i + d.1) (j + d.2) ∧ g (i + d.1, j + d.2) = -1 then
        count + 1
      else
        count) 0

/-- `Minesweeper::calculateNumbers`: the row-major double loop overwriting
each non-mine cell with its adjacent-mine count, in place. -/
def calculateNumbers (rows cols : ℤ) (g0 : ℤ × ℤ → ℤ) : ℤ × ℤ → ℤ :=
  (cellsList rows cols).foldl
    (fun g c => if g c ≠ -1 then Function.update g c (calcCell rows cols g c.1 c.2) else g)
    g0

/-- The `Minesweeper` constructor, taking the random stream and the number of
placement-loop iterations actually run: zero-initialised grids and flags,
mines placed, numbers computed.  When `placeState … n` has placed all
`totalMines` mines this is exactly the constructed object (the loop state is
frozen from that iteration on, see `placeState_frozen`). -/
def constructAfter (rows cols mines : ℤ) (rnd : ℕ → ℕ) (n : ℕ) : Minesweeper :=
  { rows := rows
    cols := cols
    totalMines := mines
    grid := calculateNumbers rows cols (placeState rows cols mines rnd n).1
    revealed := fun _ => false
    flagged := fun _ => false
    gameOver := false
    gameWon := false }

/-- `getDifficultySettings` as a function of the user's inputs: the menu
choice and (for choice 4) the custom rows/cols/mines.  Invalid custom
settings are replaced by the beginner configuration, as are invalid menu
choices; the function never fails. -/
def getDifficultySettings (choice r c m : ℤ) : ℤ × ℤ × ℤ :=
  if choice = 1 then (9, 9, 10)
  else if choice = 2 then (16, 16, 40)
  else if choice = 3 then (16, 30, 99)
  else if choice = 4 then
    if r ≤ 0 ∨ c ≤ 0 ∨ m ≤ 0 ∨ m ≥ r * c then (9, 9, 10) else (r, c, m)
  else (9, 9, 10)

/-! ## Derived notions used to state the claims -/

/-- A cell the cascade can pass through: in bounds, unrevealed, unflagged,
and with a zero adjacent-mine number — the guard conditions of `revealCell`
together with its zero test, evaluated in the pre-call state. -/
def zeroFree (s : Minesweeper) (c : ℤ × ℤ) : Prop :=
  s.isValid c.1 c.2 ∧ s.revealed c = false ∧ s.flagged c = false ∧ s.grid c = 0

instance (s : Minesweeper) (c : ℤ × ℤ) : Decidable (zeroFree s c) := by
  unfold zeroFree; infer_instance

/-- One cascade hop: the target is again a passable zero cell adjacent to
the source. -/
def cascadeStep (s : Minesweeper) (a b : ℤ × ℤ) : Prop :=
  zeroFree s b ∧ isAdjacent a b

/-- The connected region of passable zero cells the cascade floods from `p`. -/
def Reach (s : Minesweeper) (p c : ℤ × ℤ) : Prop :=
  Relation.ReflTransGen (cascadeStep s) p c

/-- The numbered rim of that region: in bounds, unrevealed, unflagged,
non-zero, and adjacent to some region cell. -/
def Border (s : Minesweeper) (p c : ℤ × ℤ) : Prop :=
  s.isValid c.1 c.2 ∧ s.revealed c = false ∧ s.flagged c = false ∧ s.grid c ≠ 0 ∧
    ∃ a, Reach s p a ∧ isAdjacent a c

/-- The set of cells a reveal at a zero cell `p` makes newly revealed. -/
def RevealSet (s : Minesweeper) (p c : ℤ × ℤ) : Prop :=
  Reach s p c ∨ Border s p c

/-- Grid well-formedness fact the cascade analysis needs: no zero cell has a
mine among its in-bounds neighbours.  Every grid produced by
`calculateNumbers` satisfies this (`calculateNumbers_zeroSafe`). -/
def zeroSafe (s : Minesweeper) : Prop :=
  ∀ c ∈ board s.rows s.cols, s.grid c = 0 →
    ∀ d ∈ board s.rows s.cols, isAdjacent c d → s.grid d ≠ -1

instance (s : Minesweeper) : Decidable (zeroSafe s) := by
  unfold zeroSafe; infer_instance

/-- Number of revealed non-mine cells, as a set cardinality (the
specification-level restatement of the `revealedCount` loop). -/
def revealedNonMineCount (s : Minesweeper) : ℕ :=
  ((board s.rows s.cols).filter fun c => s.revealed c = true ∧ s.grid c ≠ -1).card

/-- Number of mine cells of a grid, as a set cardinality. -/
def mineCard (rows cols : ℤ) (g : ℤ × ℤ → ℤ) : ℕ :=
  ((board rows cols).filter fun c => g c = -1).card

/-- Number of mines among the in-bounds 8-neighbours of `(x, y)`, as a set
cardinality (the specification-level restatement of the `count` loop). -/
def mineNeighborCount (rows cols : ℤ) (g : ℤ × ℤ → ℤ) (x y : ℤ) : ℕ :=
  ((board rows cols).filter fun c => isAdjacent (x, y) c ∧ g c = -1).card

/-- A random stream is fair for a board when every cell is sampled at
arbitrarily late iterations (true with probability 1 of uniform sampling;
not true of every stream). -/
def FairStream (rows cols : ℤ) (rnd : ℕ → ℕ) : Prop :=
  ∀ x y : ℤ, validPos rows cols x y → ∀ n : ℕ,
    ∃ k, n ≤ k ∧ (rnd (2 * k) : ℤ) % rows = x ∧ (rnd (2 * k + 1) : ℤ) % cols = y

/-- The three engine operations a player can drive after construction. -/
inductive Op where
  | reveal : ℤ → ℤ → Op
  | flag : ℤ → ℤ → Op
  | win : Op

/-- Apply one operation to the board state. -/
def applyOp (s : Minesweeper) : Op → Minesweeper
  | .reveal x y => revealCell s x y
  | .flag x y => toggleFlag s x y
  | .win => (checkWin s).1

/-- Run a sequence of operations. -/
def runOps (s : Minesweeper) (l : List Op) : Minesweeper :=
  l.foldl applyOp s

/-- No cell is simultaneously revealed and flagged. -/
def noRevFlag (s : Minesweeper) : Prop :=
  ∀ c : ℤ × ℤ, ¬(s.revealed c = true ∧ s.flagged c = true)

/-- A concrete 1×2 board: the stream places the single mine at (0, 1), so
the grid is `1 | mine`. -/
def board01 : Minesweeper := constructAfter 1 2 1 (fun n => n) 1

/-- A concrete 1×3 board: the stream places the single mine at (0, 2), so
the grid is `0 1 mine` and (0, 0) is a zero cell. -/
def board02 : Minesweeper := constructAfter 1 3 1 (fun n => 2 * n) 1

/-- `board01` after revealing the safe cell and calling `checkWin`: a won
game whose `gameOver` flag is still false. -/
def wonState : Minesweeper := (checkWin (revealCell board01 0 0)).1

/-- `board01` after revealing the mine: a lost game. -/
def lostState : Minesweeper := revealCell board01 0 1

/-! ## Positions, the board rectangle, and the direction vectors -/

theorem mem_board {r c : ℤ} {p : ℤ × ℤ} :
    p ∈ board r c ↔ validPos r c p.1 p.2 := by
  simp [board, validPos, Finset.mem_product, Finset.mem_Ico, and_assoc]

theorem mem_cellsList {r c : ℤ} {p : ℤ × ℤ} :
    p ∈ cellsList r c ↔ validPos r c p.1 p.2 := by
  constructor
  · intro hmem
    obtain ⟨i, hi, hm⟩ := List.mem_flatMap.mp hmem
    obtain ⟨j, hj, he⟩ := List.mem_map.mp hm
    rw [List.mem_range] at hi hj
    subst he
    exact ⟨by omega, by omega, by omega, by omega⟩
  · rintro ⟨h1, h2, h3, h4⟩
    apply List.mem_flatMap.mpr
    refine ⟨p.1.toNat, List.mem_range.mpr (by omega),
      List.mem_map.mpr ⟨p.2.toNat, List.mem_range.mpr (by omega), ?_⟩⟩
    rw [Int.toNat_of_nonneg h1, Int.toNat_of_nonneg h3]

theorem cellsList_nodup (r c : ℤ) : (cellsList r c).Nodup := by
  unfold cellsList
  rw [List.nodup_flatMap]
  constructor
  · intro i _
    exact (List.nodup_range _).map fun a b h => by
      injection h with h1 h2; omega
  · refine (List.nodup_range _).imp fun {a b} hne => ?_
    intro p hp hq
    simp only [List.mem_map, List.mem_range] at hp hq
    obtain ⟨j1, _, rfl⟩ := hp
    obtain ⟨j2, _, h⟩ := hq
    injection h with h1 h2
    exact hne (by omega)

theorem cellsList_toFinset (r c : ℤ) : (cellsList r c).toFinset = board r c := by
  ext p
  rw [List.mem_toFinset, mem_cellsList, mem_board]

/-- Each direction vector really points at an adjacent cell. -/
theorem adj_of_mem_directions {x y : ℤ} {d : ℤ × ℤ} (hd : d ∈ directions) :
    isAdjacent (x, y) (x + d.1, y + d.2) := by
  fin_cases hd <;>
    exact ⟨by intro h; injection h; omega, by simp, by simp⟩

/-- Every adjacent cell is reached by one of the 8 direction vectors. -/
theorem exists_direction_of_adj {a b : ℤ × ℤ} (h : isAdjacent a b) :
    ∃ d ∈ directions, b = (a.1 + d.1, a.2 + d.2) := by
  obtain ⟨a1, a2⟩ := a
  obtain ⟨b1, b2⟩ := b
  obtain ⟨hne, h1, h2⟩ := h
  refine ⟨(b1 - a1, b2 - a2), ?_, by simp⟩
  have hne1 : ¬(b1 - a1 = 0 ∧ b2 - a2 = 0) := by
    rintro ⟨u, v⟩
    exact hne (by simp only [Prod.mk.injEq]; omega)
  dsimp only at h1 h2
  rw [abs_le] at h1 h2
  have e1 : b1 - a1 = -1 ∨ b1 - a1 = 0 ∨ b1 - a1 = 1 := by omega
  have e2 : b2 - a2 = -1 ∨ b2 - a2 = 0 ∨ b2 - a2 = 1 := by omega
  simp only [directions, dxs, dys, List.zip, List.zipWith, List.mem_cons]
  rcases e1 with h | h | h <;> rcases e2 with g | g | g <;> simp_all

/-! ## Basic properties of the flood fill -/

/-- Propagate an invariant through a `foldl`. -/
theorem foldl_invariant {α β : Type _} (P : β → Prop) (g : β → α → β) (l : List α) (b : β)
    (hb : P b) (hstep : ∀ t a, a ∈ l → P t → P (g t a)) : P (l.foldl g b) := by
  induction l generalizing b with
  | nil => exact hb
  | cons a l ih =>
    exact ih (g b a) (hstep b a (List.mem_cons_self a l) hb)
      fun t a2 h2 => hstep t a2 (List.mem_cons_of_mem a h2)

/-- The flood fill changes nothing but `revealed` and `gameOver`. -/
theorem revealFuel_fields (f : ℕ) (s : Minesweeper) (x y : ℤ) :
    (revealFuel f s x y).rows = s.rows ∧
    (revealFuel f s x y).cols = s.cols ∧
    (revealFuel f s x y).totalMines = s.totalMines ∧
    (revealFuel f s x y).grid = s.grid ∧
    (revealFuel f s x y).flagged = s.flagged ∧
    (revealFuel f s x y).gameWon = s.gameWon := by
  induction f generalizing s x y with
  | zero => exact ⟨rfl, rfl, rfl, rfl, rfl, rfl⟩
  | succ f ih =>
    rw [revealFuel]
    split
    · exact ⟨rfl, rfl, rfl, rfl, rfl, rfl⟩
    split
    · exact ⟨rfl, rfl, rfl, rfl, rfl, rfl⟩
    split
    · refine foldl_invariant
        (fun (t : Minesweeper) => t.rows = s.rows ∧ t.cols = s.cols ∧
          t.totalMines = s.totalMines ∧
          t.grid = s.grid ∧ t.flagged = s.flagged ∧ t.gameWon = s.gameWon)
        _ _ _ ⟨rfl, rfl, rfl, rfl, rfl, rfl⟩ ?_
      intro t d _ ht
      obtain ⟨h1, h2, h3, h4, h5, h6⟩ := ih t (x + d.1) (y + d.2)
      exact ⟨h1.trans ht.1, h2.trans ht.2.1, h3.trans ht.2.2.1, h4.trans ht.2.2.2.1,
        h5.trans ht.2.2.2.2.1, h6.trans ht.2.2.2.2.2⟩
    · exact ⟨rfl, rfl, rfl, rfl, rfl, rfl⟩

/-- The flood fill never un-reveals a cell. -/
theorem revealFuel_revealed_mono (f : ℕ) (s : Minesweeper) (x y : ℤ) (c : ℤ × ℤ)
    (h : s.revealed c = true) : (revealFuel f s x y).revealed c = true := by
  induction f generalizing s x y with
  | zero => exact h
  | succ f ih =>
    rw [revealFuel]
    split
    · exact h
    have hmark : (markRevealed s x y).revealed c = true := by
      unfold markRevealed
      rcases eq_or_ne c (x, y) with rfl | hne
      · simp
      · simpa [Function.update_noteq hne] using h
    split
    · exact hmark
    split
    · exact foldl_invariant (fun (t : Minesweeper) => t.revealed c = true) _ _ _ hmark
        fun t d _ ht => ih t (x + d.1) (y + d.2) ht
    · exact hmark

/-- The flood fill never resets the `gameOver` flag. -/
theorem revealFuel_gameOver_mono (f : ℕ) (s : Minesweeper) (x y : ℤ)
    (h : s.gameOver = true) : (revealFuel f s x y).gameOver = true := by
  induction f generalizing s x y with
  | zero => exact h
  | succ f ih =>
    rw [revealFuel]
    split
    · exact h
    split
    · rfl
    split
    · exact foldl_invariant (fun (t : Minesweeper) => t.gameOver = true) _ _ _ h
        fun t d _ ht => ih t (x + d.1) (y + d.2) ht
    · exact h

theorem markRevealed_revealed_self (s : Minesweeper) (x y : ℤ) :
    (markRevealed s x y).revealed (x, y) = true := by
  unfold markRevealed
  exact Function.update_same _ _ _

theorem markRevealed_revealed_other (s : Minesweeper) (x y : ℤ) {c : ℤ × ℤ}
    (h : c ≠ (x, y)) : (markRevealed s x y).revealed c = s.revealed c := by
  unfold markRevealed
  exact Function.update_noteq h _ _

theorem one_le_unrevealedCount (s : Minesweeper) (x y : ℤ) (hv : s.isValid x y)
    (hr : s.revealed (x, y) = false) : 1 ≤ unrevealedCount s :=
  Finset.card_pos.mpr ⟨(x, y), Finset.mem_filter.mpr ⟨mem_board.mpr hv, hr⟩⟩

/-- Marking a fresh valid cell decreases the unrevealed count by one. -/
theorem unrevealedCount_markRevealed (s : Minesweeper) (x y : ℤ) (hv : s.isValid x y)
    (hr : s.revealed (x, y) = false) :
    unrevealedCount (markRevealed s x y) + 1 = unrevealedCount s := by
  have hmem : (x, y) ∈ (board s.rows s.cols).filter fun c => s.revealed c = false :=
    Finset.mem_filter.mpr ⟨mem_board.mpr hv, hr⟩
  have hpos := Finset.card_pos.mpr ⟨(x, y), hmem⟩
  unfold unrevealedCount markRevealed
  dsimp only
  have hset :
      ((board s.rows s.cols).filter fun c => Function.update s.revealed (x, y) true c = false)
        = ((board s.rows s.cols).filter fun c => s.revealed c = false).erase (x, y) := by
    ext c
    rw [Finset.mem_erase, Finset.mem_filter, Finset.mem_filter]
    constructor
    · rintro ⟨h1, h2⟩
      rcases eq_or_ne c (x, y) with rfl | hne
      · rw [Function.update_same] at h2; cases h2
      · rw [Function.update_noteq hne] at h2; exact ⟨hne, h1, h2⟩
    · rintro ⟨hne, h1, h2⟩
      refine ⟨h1, ?_⟩
      rw [Function.update_noteq hne]
      exact h2
  rw [hset, Finset.card_erase_of_mem hmem]
  omega

/-- The flood fill never increases the unrevealed count. -/
theorem unrevealedCount_revealFuel_le (f : ℕ) (s : Minesweeper) (x y : ℤ) :
    unrevealedCount (revealFuel f s x y) ≤ unrevealedCount s := by
  obtain ⟨hr, hc, -, -, -, -⟩ := revealFuel_fields f s x y
  unfold unrevealedCount
  rw [hr, hc]
  apply Finset.card_le_card
  intro c hmem
  rw [Finset.mem_filter] at hmem ⊢
  refine ⟨hmem.1, ?_⟩
  rcases h : s.revealed c with _ | _
  · rfl
  · rw [revealFuel_revealed_mono f s x y c h] at hmem
    cases hmem.2

/-- With enough fuel, a valid unflagged target cell ends up revealed. -/
theorem revealFuel_reveals (f : ℕ) (s : Minesweeper) (x y : ℤ)
    (hf : unrevealedCount s ≤ f) (hv : s.isValid x y) (hfl : s.flagged (x, y) = false) :
    (revealFuel f s x y).revealed (x, y) = true := by
  rcases hrev : s.revealed (x, y) with _ | _
  · have h1 := one_le_unrevealedCount s x y hv hrev
    obtain ⟨f2, rfl⟩ : ∃ f2, f = f2 + 1 := ⟨f - 1, by omega⟩
    rw [revealFuel]
    rw [if_neg (by simp [hv, hrev, hfl])]
    split
    · exact markRevealed_revealed_self s x y
    split
    · exact foldl_invariant (fun (t : Minesweeper) => t.revealed (x, y) = true) _ _ _
        (markRevealed_revealed_self s x y)
        fun t d _ ht => revealFuel_revealed_mono f2 t _ _ _ ht
    · exact markRevealed_revealed_self s x y
  · exact revealFuel_revealed_mono f s x y _ hrev

/-- Once the fuel reaches the number of unrevealed cells, adding more fuel
does not change the flood fill: the fuelled definition computes the result
of the C++ recursion. -/
theorem revealFuel_succ_eq (f : ℕ) : ∀ (s : Minesweeper) (x y : ℤ),
    unrevealedCount s ≤ f → revealFuel (f + 1) s x y = revealFuel f s x y := by
  induction f with
  | zero =>
    intro s x y hf
    conv_lhs => rw [revealFuel]
    split
    · rfl
    · rename_i hguard
      push_neg at hguard
      exact absurd hf (by
        have := one_le_unrevealedCount s x y hguard.1 (by simpa using hguard.2.1)
        omega)
  | succ f ih =>
    intro s x y hf
    conv_lhs => rw [revealFuel]
    conv_rhs => rw [revealFuel]
    split
    · rfl
    split
    · rfl
    · split
      · rename_i hguard hmine hzero
        push_neg at hguard
        have hmark : unrevealedCount (markRevealed s x y) ≤ f := by
          have := unrevealedCount_markRevealed s x y hguard.1 (by simpa using hguard.2.1)
          omega
        have hfold : ∀ (L : List (ℤ × ℤ)) (t : Minesweeper), unrevealedCount t ≤ f →
            L.foldl (fun acc d => revealFuel (f + 1) acc (x + d.1) (y + d.2)) t
              = L.foldl (fun acc d => revealFuel f acc (x + d.1) (y + d.2)) t := by
          intro L
          induction L with
          | nil => intro t ht; rfl
          | cons d L ihL =>
            intro t ht
            rw [List.foldl_cons, List.foldl_cons, ih t (x + d.1) (y + d.2) ht]
            exact ihL _ (le_trans (unrevealedCount_revealFuel_le f t (x + d.1) (y + d.2)) ht)
        exact hfold directions (markRevealed s x y) hmark
      · rfl

/-- Any fuel at least `unrevealedCount s` computes `revealCell`: the fuelled
embedding agrees with the terminating C++ recursion. -/
theorem revealFuel_fuel_irrelevant (s : Minesweeper) (x y : ℤ) :
    ∀ f, unrevealedCount s ≤ f → revealFuel f s x y = revealCell s x y := by
  intro f
  induction f with
  | zero =>
    intro hf
    unfold revealCell
    rw [Nat.le_zero.mp hf]
  | succ f ih =>
    intro hf
    rcases Nat.lt_or_ge (unrevealedCount s) (f + 1) with h | h
    · rw [revealFuel_succ_eq f s x y (by omega)]
      exact ih (by omega)
    · have : unrevealedCount s = f + 1 := by omega
      unfold revealCell
      rw [this]

/-! ## Soundness of the cascade: only the region and its rim get revealed -/

/-- Invariant of the recursion: `gameOver` is untouched, previously revealed
cells stay revealed, and every revealed cell was either revealed at the
start (`R0`) or lies in the target set `T`, provided `T` is closed under
cascade hops (`HT`) and contains no mines (`HTm`) and provided the call
target is in `T` whenever the guards let it through. -/
theorem revealFuel_sound (g : ℤ × ℤ → ℤ) (fl R0 : ℤ × ℤ → Bool) (rows cols : ℤ)
    (T : ℤ × ℤ → Prop)
    (HT : ∀ c, T c → g c = 0 → ∀ d, isAdjacent c d → validPos rows cols d.1 d.2 →
      fl d = false → (R0 d = true ∨ T d))
    (HTm : ∀ c, T c → g c ≠ -1) :
    ∀ (f : ℕ) (s : Minesweeper) (x y : ℤ),
      s.rows = rows → s.cols = cols → s.grid = g → s.flagged = fl →
      (∀ c, R0 c = true → s.revealed c = true) →
      (∀ c, s.revealed c = true → R0 c = true ∨ T c) →
      (validPos rows cols x y → s.revealed (x, y) = false → fl (x, y) = false → T (x, y)) →
      (revealFuel f s x y).gameOver = s.gameOver ∧
      (∀ c, R0 c = true → (revealFuel f s x y).revealed c = true) ∧
      (∀ c, (revealFuel f s x y).revealed c = true → R0 c = true ∨ T c) := by
  intro f
  induction f with
  | zero => intro s x y h1 h2 h3 h4 h5 h6 hxy; exact ⟨rfl, h5, h6⟩
  | succ f ih =>
    intro s x y h1 h2 h3 h4 h5 h6 hxy
    rw [revealFuel]
    split
    · exact ⟨rfl, h5, h6⟩
    rename_i hguard
    push_neg at hguard
    obtain ⟨hv, hnr, hnf⟩ := hguard
    have hvp : validPos rows cols x y := by rw [← h1, ← h2]; exact hv
    have hnr2 : s.revealed (x, y) = false := by simpa using hnr
    have hnf2 : fl (x, y) = false := by rw [← h4]; simpa using hnf
    have hT : T (x, y) := hxy hvp hnr2 hnf2
    have hm5 : ∀ c, R0 c = true → (markRevealed s x y).revealed c = true := by
      intro c hc
      rcases eq_or_ne c (x, y) with rfl | hne
      · exact markRevealed_revealed_self s x y
      · rw [markRevealed_revealed_other s x y hne]
        exact h5 c hc
    have hm6 : ∀ c, (markRevealed s x y).revealed c = true → R0 c = true ∨ T c := by
      intro c hc
      rcases eq_or_ne c (x, y) with rfl | hne
      · exact Or.inr hT
      · rw [markRevealed_revealed_other s x y hne] at hc
        exact h6 c hc
    split
    · rename_i hmine
      exact absurd (by rw [← h3]; exact hmine) (HTm _ hT)
    split
    · rename_i hmine hzero
      have hg0 : g (x, y) = 0 := by rw [← h3]; exact hzero
      have hfold := foldl_invariant (fun (t : Minesweeper) =>
          t.rows = rows ∧ t.cols = cols ∧ t.grid = g ∧ t.flagged = fl ∧
          t.gameOver = s.gameOver ∧
          (∀ c, R0 c = true → t.revealed c = true) ∧
          (∀ c, t.revealed c = true → R0 c = true ∨ T c))
        (fun acc d => revealFuel f acc (x + d.1) (y + d.2)) directions (markRevealed s x y)
        ⟨h1, h2, h3, h4, rfl, hm5, hm6⟩ ?_
      · exact ⟨hfold.2.2.2.2.1, hfold.2.2.2.2.2.1, hfold.2.2.2.2.2.2⟩
      · intro t d hd ht
        obtain ⟨t1, t2, t3, t4, t5, t6, t7⟩ := ht
        obtain ⟨f1, f2, -, f4, f5, -⟩ := revealFuel_fields f t (x + d.1) (y + d.2)
        have hnext : validPos rows cols (x + d.1) (y + d.2) →
            t.revealed (x + d.1, y + d.2) = false → fl (x + d.1, y + d.2) = false →
            T (x + d.1, y + d.2) := by
          intro hvd hrd hfd
          rcases HT (x, y) hT hg0 (x + d.1, y + d.2) (adj_of_mem_directions hd) hvd hfd with
            hR | hTd
          · rw [t6 _ hR] at hrd
            cases hrd
          · exact hTd
        obtain ⟨g5, g6, g7⟩ := ih t (x + d.1) (y + d.2) t1 t2 t3 t4 t6 t7 hnext
        exact ⟨f1.trans t1, f2.trans t2, f4.trans t3, f5.trans t4, g5.trans t5, g6, g7⟩
    · exact ⟨rfl, hm5, hm6⟩

/-! ## Closedness of the cascade: newly revealed zero cells propagate -/

/-- With enough fuel, every zero cell the call reveals has all of its valid
unflagged neighbours revealed by the end of the call. -/
theorem revealFuel_closed : ∀ (f : ℕ) (s : Minesweeper) (x y : ℤ),
    unrevealedCount s ≤ f →
    ∀ c, (revealFuel f s x y).revealed c = true → s.revealed c = false → s.grid c = 0 →
      ∀ d, isAdjacent c d → validPos s.rows s.cols d.1 d.2 → s.flagged d = false →
        (revealFuel f s x y).revealed d = true := by
  intro f
  induction f with
  | zero =>
    intro s x y hf c hcrev hcun hc0 d hadj hdval hdfl
    rw [revealFuel] at hcrev
    rw [hcun] at hcrev
    cases hcrev
  | succ f ih =>
    intro s x y hf c hcrev hcun hc0 d hadj hdval hdfl
    rw [revealFuel] at hcrev ⊢
    by_cases hguard : ¬ s.isValid x y ∨ s.revealed (x, y) = true ∨ s.flagged (x, y) = true
    · rw [if_pos hguard] at hcrev
      rw [hcun] at hcrev
      cases hcrev
    rw [if_neg hguard] at hcrev ⊢
    have hgd := hguard
    push_neg at hgd
    obtain ⟨hv, hnr, hnf⟩ := hgd
    have hnr2 : s.revealed (x, y) = false := by simpa using hnr
    have hμ1 : unrevealedCount (markRevealed s x y) ≤ f := by
      have := unrevealedCount_markRevealed s x y hv hnr2
      omega
    by_cases hmine : s.grid (x, y) = -1
    · rw [if_pos hmine] at hcrev
      rcases eq_or_ne c (x, y) with rfl | hne
      · rw [hc0] at hmine
        cases hmine
      · rw [show ({ markRevealed s x y with gameOver := true } : Minesweeper).revealed
            = (markRevealed s x y).revealed from rfl,
          markRevealed_revealed_other s x y hne, hcun] at hcrev
        cases hcrev
    rw [if_neg hmine] at hcrev ⊢
    by_cases hzero : s.grid (x, y) = 0
    · rw [if_pos hzero] at hcrev ⊢
      have hfieldsN : ∀ (t : Minesweeper) (a b : ℤ),
          (revealFuel f t a b).rows = t.rows ∧ (revealFuel f t a b).cols = t.cols ∧
          (revealFuel f t a b).grid = t.grid ∧ (revealFuel f t a b).flagged = t.flagged := by
        intro t a b
        obtain ⟨k1, k2, -, k4, k5, -⟩ := revealFuel_fields f t a b
        exact ⟨k1, k2, k4, k5⟩
      have hmono : ∀ (L : List (ℤ × ℤ)) (t : Minesweeper) (e : ℤ × ℤ),
          t.revealed e = true →
          (L.foldl (fun acc d => revealFuel f acc (x + d.1) (y + d.2)) t).revealed e
            = true := by
        intro L t e he
        exact foldl_invariant (fun (u : Minesweeper) => u.revealed e = true) _ _ _ he
          fun u dd _ hu => revealFuel_revealed_mono f u _ _ _ hu
      have haux2 : ∀ (L : List (ℤ × ℤ)) (t : Minesweeper),
          t.rows = s.rows → t.cols = s.cols → t.flagged = s.flagged →
          unrevealedCount t ≤ f →
          ∀ off ∈ L, validPos s.rows s.cols (x + off.1) (y + off.2) →
            s.flagged (x + off.1, y + off.2) = false →
            (L.foldl (fun acc d => revealFuel f acc (x + d.1) (y + d.2)) t).revealed
              (x + off.1, y + off.2) = true := by
        intro L
        induction L with
        | nil => intro t _ _ _ _ off hoff; cases hoff
        | cons e L ihL =>
          intro t ht1 ht2 ht4 htμ off hoff hvoff hfoff
          obtain ⟨k1, k2, k3, k4⟩ := hfieldsN t (x + e.1) (y + e.2)
          rw [List.foldl_cons]
          rcases List.mem_cons.mp hoff with rfl | hoff2
          · apply hmono
            apply revealFuel_reveals f t _ _ htμ
            · show validPos t.rows t.cols _ _
              rw [ht1, ht2]
              exact hvoff
            · rw [ht4]
              exact hfoff
          · exact ihL (revealFuel f t (x + e.1) (y + e.2)) (k1.trans ht1) (k2.trans ht2)
              (k4.trans ht4)
              (le_trans (unrevealedCount_revealFuel_le f t (x + e.1) (y + e.2)) htμ)
              off hoff2 hvoff hfoff
      have haux : ∀ (L : List (ℤ × ℤ)) (t : Minesweeper),
          t.rows = s.rows → t.cols = s.cols → t.grid = s.grid → t.flagged = s.flagged →
          unrevealedCount t ≤ f →
          ∀ c2, (L.foldl (fun acc d => revealFuel f acc (x + d.1) (y + d.2)) t).revealed c2
              = true →
            t.revealed c2 = false → s.grid c2 = 0 →
            ∀ d2, isAdjacent c2 d2 → validPos s.rows s.cols d2.1 d2.2 →
              s.flagged d2 = false →
              (L.foldl (fun acc d => revealFuel f acc (x + d.1) (y + d.2)) t).revealed d2
                = true := by
        intro L
        induction L with
        | nil =>
          intro t _ _ _ _ _ c2 hrev hun _ _ _ _ _
          rw [List.foldl_nil] at hrev
          rw [hun] at hrev
          cases hrev
        | cons e L ihL =>
          intro t ht1 ht2 ht3 ht4 htμ c2 hrev hun hgz d2 hadj2 hval2 hfl2
          obtain ⟨k1, k2, k3, k4⟩ := hfieldsN t (x + e.1) (y + e.2)
          have hμ2 : unrevealedCount (revealFuel f t (x + e.1) (y + e.2)) ≤ f :=
            le_trans (unrevealedCount_revealFuel_le f t (x + e.1) (y + e.2)) htμ
          rw [List.foldl_cons] at hrev ⊢
          by_cases hct1 : (revealFuel f t (x + e.1) (y + e.2)).revealed c2 = true
          · by_cases hct : t.revealed c2 = true
            · rw [hun] at hct
              cases hct
            · have hd1 : (revealFuel f t (x + e.1) (y + e.2)).revealed d2 = true := by
                apply ih t (x + e.1) (y + e.2) htμ c2 hct1
                  (by simpa using hct) (by rw [ht3]; exact hgz) d2 hadj2
                  (by rw [ht1, ht2]; exact hval2) (by rw [ht4]; exact hfl2)
              exact hmono L _ d2 hd1
          · exact ihL (revealFuel f t (x + e.1) (y + e.2)) (k1.trans ht1) (k2.trans ht2)
              (k3.trans ht3) (k4.trans ht4) hμ2 c2 hrev (by simpa using hct1) hgz
              d2 hadj2 hval2 hfl2
      rcases eq_or_ne c (x, y) with rfl | hne
      · obtain ⟨off, hoffmem, hoffeq⟩ := exists_direction_of_adj hadj
        subst hoffeq
        exact haux2 directions (markRevealed s x y) rfl rfl rfl hμ1 off hoffmem hdval hdfl
      · have hs1un : (markRevealed s x y).revealed c = false := by
          rw [markRevealed_revealed_other s x y hne]
          exact hcun
        exact haux directions (markRevealed s x y) rfl rfl rfl rfl hμ1 c hcrev hs1un hc0
          d hadj hdval hdfl
    · rw [if_neg hzero] at hcrev
      rcases eq_or_ne c (x, y) with rfl | hne
      · exact absurd hc0 hzero
      · rw [markRevealed_revealed_other s x y hne, hcun] at hcrev
        cases hcrev

/-! ## Completeness of the cascade, and the exact characterisation -/

theorem reach_zeroFree {s : Minesweeper} {p c : ℤ × ℤ} (hp : zeroFree s p)
    (h : Reach s p c) : zeroFree s c := by
  induction h with
  | refl => exact hp
  | tail hab hbc ih => exact hbc.1

/-- Every cell of the connected zero region gets revealed. -/
theorem reach_revealed {s : Minesweeper} {x y : ℤ} (hstart : zeroFree s (x, y))
    {c : ℤ × ℤ} (h : Reach s (x, y) c) : (revealCell s x y).revealed c = true := by
  unfold revealCell
  induction h with
  | refl =>
    exact revealFuel_reveals (unrevealedCount s) s x y le_rfl hstart.1 hstart.2.2.1
  | tail hab hbc ih =>
    rename_i b c2
    have hb : zeroFree s b := reach_zeroFree hstart hab
    have hc2 : zeroFree s c2 := hbc.1
    exact revealFuel_closed (unrevealedCount s) s x y le_rfl b ih hb.2.1 hb.2.2.2
      c2 hbc.2 hc2.1 hc2.2.2.1

/-- Every cell of the numbered rim gets revealed. -/
theorem border_revealed {s : Minesweeper} {x y : ℤ} (hstart : zeroFree s (x, y))
    {c : ℤ × ℤ} (h : Border s (x, y) c) : (revealCell s x y).revealed c = true := by
  obtain ⟨hval, hunrev, hunfl, hnz, a, hra, hadj⟩ := h
  have ha : zeroFree s a := reach_zeroFree hstart hra
  exact revealFuel_closed (unrevealedCount s) s x y le_rfl a
    (reach_revealed hstart hra) ha.2.1 ha.2.2.2 c hadj hval hunfl

/-- Conversely, only the region and its rim get revealed, and the cascade
never hits a mine (so `gameOver` is untouched): instantiation of
`revealFuel_sound` at the reveal set. -/
theorem revealCell_sound {s : Minesweeper} {x y : ℤ} (hstart : zeroFree s (x, y))
    (hsafe : zeroSafe s) :
    (revealCell s x y).gameOver = s.gameOver ∧
    (∀ c, (revealCell s x y).revealed c = true →
      s.revealed c = true ∨ RevealSet s (x, y) c) := by
  have hreachgrid : ∀ c, Reach s (x, y) c → s.grid c = 0 := fun c hc =>
    (reach_zeroFree hstart hc).2.2.2
  have HT : ∀ c, RevealSet s (x, y) c → s.grid c = 0 →
      ∀ d, isAdjacent c d → validPos s.rows s.cols d.1 d.2 →
        s.flagged d = false → (s.revealed d = true ∨ RevealSet s (x, y) d) := by
    intro c hc hc0 d hadj hdval hdfl
    have hcr : Reach s (x, y) c := by
      rcases hc with hr | hb
      · exact hr
      · exact absurd hc0 hb.2.2.2.1
    by_cases hrev : s.revealed d = true
    · exact Or.inl hrev
    have hrev2 : s.revealed d = false := by simpa using hrev
    by_cases hz : s.grid d = 0
    · exact Or.inr (Or.inl (hcr.tail ⟨⟨hdval, hrev2, hdfl, hz⟩, hadj⟩))
    · exact Or.inr (Or.inr ⟨hdval, hrev2, hdfl, hz, c, hcr, hadj⟩)
  have HTm : ∀ c, RevealSet s (x, y) c → s.grid c ≠ -1 := by
    intro c hc
    rcases hc with hr | hb
    · rw [hreachgrid c hr]
      decide
    · obtain ⟨hval, hunrev, hunfl, hnz, a, hra, hadj⟩ := hb
      have ha : zeroFree s a := reach_zeroFree hstart hra
      exact hsafe a (mem_board.mpr ha.1) ha.2.2.2 c (mem_board.mpr hval) hadj
  obtain ⟨h1, h2, h3⟩ := revealFuel_sound s.grid s.flagged s.revealed s.rows s.cols
    (RevealSet s (x, y)) HT HTm (unrevealedCount s) s x y rfl rfl rfl rfl
    (fun c hc => hc) (fun c hc => Or.inl hc)
    (fun _ _ _ => Or.inl Relation.ReflTransGen.refl)
  exact ⟨h1, h3⟩

/-! ## Counting loops versus set cardinalities -/

/-- A conditional-increment `foldl` counts the elements satisfying the
condition. -/
theorem foldl_if_count {α : Type _} (p : α → Prop) [DecidablePred p] (l : List α) :
    ∀ n : ℤ, (l.foldl (fun m e => if p e then m + 1 else m) n)
      = n + ((l.filter fun e => decide (p e)).length : ℤ) := by
  induction l with
  | nil => intro n; simp
  | cons a l ih =>
    intro n
    rw [List.foldl_cons]
    by_cases hp : p a
    · rw [if_pos hp, ih, List.filter_cons_of_pos (by simpa using hp)]
      push_cast [List.length_cons]
      ring
    · rw [if_neg hp, ih, List.filter_cons_of_neg (by simpa using hp)]

/-- Counting over the row-major cell list is counting over the board. -/
theorem length_filter_cellsList (r c : ℤ) (p : ℤ × ℤ → Prop) [DecidablePred p] :
    ((cellsList r c).filter fun e => decide (p e)).length = ((board r c).filter p).card := by
  rw [← List.toFinset_card_of_nodup ((cellsList_nodup r c).filter _)]
  rw [List.toFinset_filter, cellsList_toFinset]
  congr 1
  apply Finset.filter_congr
  intro e _
  simp

/-- The `revealedCount` loop of `checkWin` computes `revealedNonMineCount`. -/
theorem revealedCount_loop_eq (s : Minesweeper) :
    (cellsList s.rows s.cols).foldl
        (fun n c => if s.revealed c = true ∧ s.grid c ≠ -1 then n + 1 else n) 0
      = (revealedNonMineCount s : ℤ) := by
  rw [foldl_if_count (fun c => s.revealed c = true ∧ s.grid c ≠ -1) _ 0,
    length_filter_cellsList s.rows s.cols (fun c => s.revealed c = true ∧ s.grid c ≠ -1)]
  unfold revealedNonMineCount
  ring

/-- The direction vectors are pairwise distinct. -/
theorem directions_nodup : directions.Nodup := by decide

/-- The `count` loop over the 8 directions computes the number of in-bounds
mine neighbours. -/
theorem calcCell_eq (rows cols : ℤ) (g : ℤ × ℤ → ℤ) (i j : ℤ) :
    calcCell rows cols g i j = (mineNeighborCount rows cols g i j : ℤ) := by
  unfold calcCell
  rw [foldl_if_count
    (fun d : ℤ × ℤ => validPos rows cols (i + d.1) (j + d.2) ∧ g (i + d.1, j + d.2) = -1)
    directions 0, zero_add]
  congr 1
  have hinj : Function.Injective (fun d : ℤ × ℤ => (i + d.1, j + d.2)) := by
    intro a b hab
    injection hab with h1 h2
    obtain ⟨a1, a2⟩ := a
    obtain ⟨b1, b2⟩ := b
    simp only [Prod.mk.injEq]
    dsimp only at h1 h2
    omega
  have hnodup : (directions.map fun d : ℤ × ℤ => (i + d.1, j + d.2)).Nodup :=
    directions_nodup.map hinj
  have hstep : ((directions.map fun d : ℤ × ℤ => (i + d.1, j + d.2)).filter
        fun e => decide (validPos rows cols e.1 e.2 ∧ g e = -1)).length
      = (directions.filter fun d : ℤ × ℤ =>
          decide (validPos rows cols (i + d.1) (j + d.2) ∧ g (i + d.1, j + d.2) = -1)).length := by
    rw [List.filter_map, List.length_map]
    rfl
  rw [← hstep, ← List.toFinset_card_of_nodup (hnodup.filter _), List.toFinset_filter]
  unfold mineNeighborCount
  congr 1
  ext e
  simp only [Finset.mem_filter, List.mem_toFinset, List.mem_map, mem_board,
    decide_eq_true_eq]
  constructor
  · rintro ⟨⟨d, hd, rfl⟩, hQ⟩
    exact ⟨hQ.1, adj_of_mem_directions hd, hQ.2⟩
  · rintro ⟨hv, hadj, hm⟩
    obtain ⟨d, hd, he⟩ := exists_direction_of_adj hadj
    exact ⟨⟨d, hd, he.symm⟩, hv, hm⟩

/-! ## Correctness of `calculateNumbers` -/

theorem mineNeighborCount_congr {rows cols : ℤ} {g1 g2 : ℤ × ℤ → ℤ}
    (h : ∀ e, g1 e = -1 ↔ g2 e = -1) (x y : ℤ) :
    mineNeighborCount rows cols g1 x y = mineNeighborCount rows cols g2 x y := by
  unfold mineNeighborCount
  congr 1
  apply Finset.filter_congr
  intro e _
  simp [h e]

/-- One pass of the in-place update never creates or destroys a mine: mines
are skipped and written counts are non-negative. -/
theorem calcStep_mine_iff (rows cols : ℤ) (g : ℤ × ℤ → ℤ) (a e : ℤ × ℤ) :
    (if g a ≠ -1 then Function.update g a (calcCell rows cols g a.1 a.2) else g) e = -1
      ↔ g e = -1 := by
  split
  · rcases eq_or_ne e a with rfl | hea
    · rename_i ha
      rw [Function.update_same]
      constructor
      · intro h
        rw [calcCell_eq] at h
        omega
      · intro h
        exact absurd h ha
    · rw [Function.update_noteq hea]
  · exact Iff.rfl

theorem foldl_calc_mine_iff (rows cols : ℤ) : ∀ (l : List (ℤ × ℤ)) (g : ℤ × ℤ → ℤ)
    (e : ℤ × ℤ),
    (l.foldl (fun g2 c =>
        if g2 c ≠ -1 then Function.update g2 c (calcCell rows cols g2 c.1 c.2) else g2) g) e
        = -1
      ↔ g e = -1 := by
  intro l
  induction l with
  | nil => intro g e; exact Iff.rfl
  | cons a l ih =>
    intro g e
    rw [List.foldl_cons]
    exact (ih _ e).trans (calcStep_mine_iff rows cols g a e)

theorem foldl_calc_untouched (rows cols : ℤ) : ∀ (l : List (ℤ × ℤ)) (g : ℤ × ℤ → ℤ)
    (e : ℤ × ℤ), e ∉ l →
    (l.foldl (fun g2 c =>
        if g2 c ≠ -1 then Function.update g2 c (calcCell rows cols g2 c.1 c.2) else g2) g) e
      = g e := by
  intro l
  induction l with
  | nil => intro g e _; rfl
  | cons a l ih =>
    intro g e he
    rw [List.foldl_cons]
    rw [ih _ e fun h => he (List.mem_cons_of_mem a h)]
    split
    · exact Function.update_noteq (fun h => he (by rw [h]; exact List.mem_cons_self a l)) _ _
    · rfl

/-- Main inductive step: a non-mine cell of the work list ends up holding its
in-bounds mine-neighbour count (with respect to the mine set of the grid at
entry, which every pass preserves). -/
theorem foldl_calc_value (rows cols : ℤ) : ∀ (l : List (ℤ × ℤ)) (g : ℤ × ℤ → ℤ)
    (cc : ℤ × ℤ), l.Nodup → cc ∈ l → g cc ≠ -1 →
    (l.foldl (fun g2 c =>
        if g2 c ≠ -1 then Function.update g2 c (calcCell rows cols g2 c.1 c.2) else g2) g) cc
      = (mineNeighborCount rows cols g cc.1 cc.2 : ℤ) := by
  intro l
  induction l with
  | nil => intro g cc _ hm; cases hm
  | cons a l ih =>
    intro g cc hnd hm hnm
    rw [List.foldl_cons]
    rcases List.mem_cons.mp hm with rfl | hm2
    · have hnotin : cc ∉ l := (List.nodup_cons.mp hnd).1
      rw [foldl_calc_untouched rows cols l _ cc hnotin]
      rw [if_pos hnm, Function.update_same]
      exact calcCell_eq rows cols g cc.1 cc.2
    · have hne : cc ≠ a := fun h => (List.nodup_cons.mp hnd).1 (h ▸ hm2)
      have hg1cc :
          (if g a ≠ -1 then Function.update g a (calcCell rows cols g a.1 a.2) else g) cc
            = g cc := by
        split
        · exact Function.update_noteq hne _ _
        · rfl
      rw [ih _ cc (List.nodup_cons.mp hnd).2 hm2 (by rw [hg1cc]; exact hnm)]
      congr 1
      exact mineNeighborCount_congr (calcStep_mine_iff rows cols g a) cc.1 cc.2

/-- `calculateNumbers` leaves the mine set unchanged. -/
theorem calculateNumbers_mine_iff (rows cols : ℤ) (g0 : ℤ × ℤ → ℤ) (e : ℤ × ℤ) :
    calculateNumbers rows cols g0 e = -1 ↔ g0 e = -1 := by
  unfold calculateNumbers
  exact foldl_calc_mine_iff rows cols (cellsList rows cols) g0 e

/-- After `calculateNumbers`, every in-bounds non-mine cell holds exactly the
number of mines among its in-bounds 8-neighbours, counted in the resulting
grid. -/
theorem calculateNumbers_correct (rows cols : ℤ) (g0 : ℤ × ℤ → ℤ) (x y : ℤ)
    (hv : validPos rows cols x y) (hnm : calculateNumbers rows cols g0 (x, y) ≠ -1) :
    calculateNumbers rows cols g0 (x, y)
      = (mineNeighborCount rows cols (calculateNumbers rows cols g0) x y : ℤ) := by
  have hnm0 : g0 (x, y) ≠ -1 := fun h =>
    hnm ((calculateNumbers_mine_iff rows cols g0 (x, y)).mpr h)
  have hval := foldl_calc_value rows cols (cellsList rows cols) g0 (x, y)
    (cellsList_nodup rows cols) (mem_cellsList.mpr hv) hnm0
  unfold calculateNumbers
  rw [hval]
  congr 1
  exact mineNeighborCount_congr
    (fun e => (calculateNumbers_mine_iff rows cols g0 e).symm) x y

/-- A zero cell of a computed grid has no mine among its in-bounds
neighbours. -/
theorem calculateNumbers_zeroSafe (rows cols : ℤ) (g0 : ℤ × ℤ → ℤ) :
    ∀ c ∈ board rows cols, calculateNumbers rows cols g0 c = 0 →
      ∀ d ∈ board rows cols, isAdjacent c d → calculateNumbers rows cols g0 d ≠ -1 := by
  intro c hc h0 d hd hadj hdm
  have hcnm : calculateNumbers rows cols g0 c ≠ -1 := by
    rw [h0]
    decide
  have hG := calculateNumbers_correct rows cols g0 c.1 c.2 (mem_board.mp hc) hcnm
  have hcount : mineNeighborCount rows cols (calculateNumbers rows cols g0) c.1 c.2 = 0 := by
    rw [hG] at h0
    exact_mod_cast h0
  unfold mineNeighborCount at hcount
  rw [Finset.card_eq_zero] at hcount
  have hmem : d ∈ (board rows cols).filter
      fun e => isAdjacent (c.1, c.2) e ∧ calculateNumbers rows cols g0 e = -1 :=
    Finset.mem_filter.mpr ⟨hd, hadj, hdm⟩
  rw [hcount] at hmem
  exact absurd hmem (Finset.not_mem_empty d)

/-- Constructed boards satisfy the zero-safety fact the cascade claims use. -/
theorem constructAfter_zeroSafe (rows cols mines : ℤ) (rnd : ℕ → ℕ) (n : ℕ) :
    zeroSafe (constructAfter rows cols mines rnd n) := by
  intro c hc h0 d hd hadj
  exact calculateNumbers_zeroSafe rows cols _ c hc h0 d hd hadj

/-! ## The mine-placement loop -/

theorem mineCard_update (r c : ℤ) (g : ℤ × ℤ → ℤ) (e : ℤ × ℤ) (he : e ∈ board r c)
    (hg : g e ≠ -1) :
    mineCard r c (Function.update g e (-1)) = mineCard r c g + 1 := by
  unfold mineCard
  have hset : ((board r c).filter fun cc => Function.update g e (-1) cc = -1)
      = insert e ((board r c).filter fun cc => g cc = -1) := by
    ext cc
    rw [Finset.mem_insert, Finset.mem_filter, Finset.mem_filter]
    rcases eq_or_ne cc e with rfl | hne
    · simp [Function.update_same, he]
    · rw [Function.update_noteq hne]
      constructor
      · rintro ⟨h1, h2⟩
        exact Or.inr ⟨h1, h2⟩
      · rintro (rfl | ⟨h1, h2⟩)
        · exact absurd rfl hne
        · exact ⟨h1, h2⟩
  rw [hset]
  have hnot : e ∉ (board r c).filter fun cc => g cc = -1 := fun hmem =>
    hg (Finset.mem_filter.mp hmem).2
  rw [Finset.card_insert_of_not_mem hnot]

/-- Invariant of the placement loop: the mine count of the grid equals the
`minesPlaced` counter, the counter never exceeds `totalMines`, and all mines
lie on the board. -/
theorem placeState_inv (r c m : ℤ) (rnd : ℕ → ℕ) (hr : 0 < r) (hc : 0 < c) (hm : 0 ≤ m) :
    ∀ n : ℕ,
      mineCard r c (placeState r c m rnd n).1 = (placeState r c m rnd n).2 ∧
      ((placeState r c m rnd n).2 : ℤ) ≤ m ∧
      (∀ e, (placeState r c m rnd n).1 e = -1 → e ∈ board r c) := by
  intro n
  induction n with
  | zero =>
    refine ⟨?_, by exact_mod_cast hm, fun e he => by cases he⟩
    unfold mineCard placeState
    simp
  | succ n ih =>
    obtain ⟨ih1, ih2, ih3⟩ := ih
    simp only [placeState]
    split
    · rename_i hlt
      set x : ℤ := (rnd (2 * n) : ℤ) % r with hxdef
      set y : ℤ := (rnd (2 * n + 1) : ℤ) % c with hydef
      have hxy : (x, y) ∈ board r c := by
        rw [mem_board]
        refine ⟨Int.emod_nonneg _ (by omega), Int.emod_lt_of_pos _ hr,
          Int.emod_nonneg _ (by omega), Int.emod_lt_of_pos _ hc⟩
      split
      · rename_i hfresh
        refine ⟨?_, by push_cast; omega, ?_⟩
        · dsimp only
          rw [mineCard_update r c _ (x, y) hxy hfresh, ih1]
        · intro e he
          dsimp only at he
          rcases eq_or_ne e (x, y) with rfl | hne
          · exact hxy
          · rw [Function.update_noteq hne] at he
            exact ih3 e he
      · exact ⟨ih1, ih2, ih3⟩
    · exact ⟨ih1, ih2, ih3⟩

/-- Once all mines are placed, the loop state never changes again. -/
theorem placeState_frozen (r c m : ℤ) (rnd : ℕ → ℕ) (n : ℕ)
    (h : ((placeState r c m rnd n).2 : ℤ) = m) :
    ∀ k, placeState r c m rnd (n + k) = placeState r c m rnd n := by
  intro k
  induction k with
  | zero => rfl
  | succ k ih =>
    rw [show n + (k + 1) = (n + k) + 1 by omega, placeState, ih]
    rw [if_neg (by omega)]

/-- The `minesPlaced` counter never decreases. -/
theorem placeState_placed_mono (r c m : ℤ) (rnd : ℕ → ℕ) {n k : ℕ} (h : n ≤ k) :
    (placeState r c m rnd n).2 ≤ (placeState r c m rnd k).2 := by
  obtain ⟨j, rfl⟩ : ∃ j, k = n + j := ⟨k - n, by omega⟩
  induction j with
  | zero => exact le_rfl
  | succ j ih =>
    refine le_trans (ih (by omega)) ?_
    rw [show n + (j + 1) = (n + j) + 1 by omega]
    simp only [placeState]
    split
    · split
      · dsimp only
        omega
      · exact le_rfl
    · exact le_rfl

/-- A placed mine stays in place. -/
theorem placeState_mine_mono (r c m : ℤ) (rnd : ℕ → ℕ) {n k : ℕ} (h : n ≤ k) (e : ℤ × ℤ)
    (hmine : (placeState r c m rnd n).1 e = -1) : (placeState r c m rnd k).1 e = -1 := by
  obtain ⟨j, rfl⟩ : ∃ j, k = n + j := ⟨k - n, by omega⟩
  induction j with
  | zero => exact hmine
  | succ j ih =>
    have hj := ih (by omega)
    rw [show n + (j + 1) = (n + j) + 1 by omega]
    simp only [placeState]
    split
    · split
      · dsimp only
        rcases eq_or_ne e ((rnd (2 * (n + j)) : ℤ) % r, (rnd (2 * (n + j) + 1) : ℤ) % c) with
          rfl | hne
        · exact Function.update_same _ _ _
        · rw [Function.update_noteq hne]
          exact hj
      · exact hj
    · exact hj

/-- For a fair stream (and a valid configuration) the rejection-sampling
loop terminates. -/
theorem placeTerminates_of_fair (r c m : ℤ) (rnd : ℕ → ℕ) (hr : 0 < r) (hc : 0 < c)
    (hm0 : 0 < m) (hmlt : m < r * c) (hfair : FairStream r c rnd) :
    placeTerminates r c m rnd := by
  have hinv := placeState_inv r c m rnd hr hc (le_of_lt hm0)
  have hboardcard : ((board r c).card : ℤ) = r * c := by
    unfold board
    rw [Finset.card_product, Int.card_Ico, Int.card_Ico]
    push_cast [Int.toNat_of_nonneg (by omega : (0 : ℤ) ≤ r - 0),
      Int.toNat_of_nonneg (by omega : (0 : ℤ) ≤ c - 0)]
    ring
  have key : ∀ (j : ℕ) (n : ℕ), m ≤ ((placeState r c m rnd n).2 : ℤ) + j →
      ∃ N, ((placeState r c m rnd N).2 : ℤ) = m := by
    intro j
    induction j with
    | zero =>
      intro n hn
      exact ⟨n, le_antisymm (hinv n).2.1 (by simpa using hn)⟩
    | succ j ih =>
      intro n hn
      by_cases hdone : ((placeState r c m rnd n).2 : ℤ) = m
      · exact ⟨n, hdone⟩
      have hlt : ((placeState r c m rnd n).2 : ℤ) < m := lt_of_le_of_ne (hinv n).2.1 hdone
      have h1 : ((((board r c).filter fun e => (placeState r c m rnd n).1 e = -1)).card : ℤ)
          = (placeState r c m rnd n).2 := by exact_mod_cast (hinv n).1
      have hcardlt : (((board r c).filter fun e => (placeState r c m rnd n).1 e = -1)).card
          < (board r c).card := by omega
      have hexists : ∃ e ∈ board r c, (placeState r c m rnd n).1 e ≠ -1 := by
        by_contra hall
        push_neg at hall
        have hsub : board r c ⊆ (board r c).filter fun e =>
            (placeState r c m rnd n).1 e = -1 := fun e he =>
          Finset.mem_filter.mpr ⟨he, hall e he⟩
        exact absurd (Finset.card_le_card hsub) (by omega)
      obtain ⟨e, heb, hefree⟩ := hexists
      obtain ⟨hex0, hex1, hey0, hey1⟩ := mem_board.mp heb
      obtain ⟨k, hk, hkx, hky⟩ := hfair e.1 e.2 ⟨hex0, hex1, hey0, hey1⟩ n
      by_cases hdk : ((placeState r c m rnd k).2 : ℤ) = m
      · exact ⟨k, hdk⟩
      have hltk : ((placeState r c m rnd k).2 : ℤ) < m := lt_of_le_of_ne (hinv k).2.1 hdk
      have hmono := placeState_placed_mono r c m rnd hk
      by_cases hmine : (placeState r c m rnd k).1 (e.1, e.2) = -1
      · have hssub : ((board r c).filter fun e2 => (placeState r c m rnd n).1 e2 = -1)
            ⊂ ((board r c).filter fun e2 => (placeState r c m rnd k).1 e2 = -1) := by
          rw [Finset.ssubset_iff_subset_ne]
          constructor
          · intro e2 he2
            rw [Finset.mem_filter] at he2 ⊢
            exact ⟨he2.1, placeState_mine_mono r c m rnd hk e2 he2.2⟩
          · intro heq
            have hie : e ∈ (board r c).filter fun e2 =>
                (placeState r c m rnd n).1 e2 = -1 := by
              rw [heq]
              exact Finset.mem_filter.mpr ⟨heb, hmine⟩
            exact hefree (Finset.mem_filter.mp hie).2
        have hcard := Finset.card_lt_card hssub
        have h2 : ((((board r c).filter fun e2 =>
            (placeState r c m rnd k).1 e2 = -1)).card : ℤ)
            = (placeState r c m rnd k).2 := by exact_mod_cast (hinv k).1
        exact ih k (by omega)
      · have hstep : ((placeState r c m rnd (k + 1)).2 : ℤ)
            = (placeState r c m rnd k).2 + 1 := by
          simp only [placeState]
          rw [if_pos hltk, hkx, hky, if_pos hmine]
          dsimp only
          push_cast
          ring
        exact ih (k + 1) (by omega)
  have h0 : (placeState r c m rnd 0).2 = 0 := rfl
  exact key m.toNat 0 (by omega)

/-! ## `checkWin`, `toggleFlag`, and the operation machinery -/

/-- `checkWin` either detects the win count and sets `gameWon`, or does
nothing. -/
theorem checkWin_cases (s : Minesweeper) :
    ((revealedNonMineCount s : ℤ) = s.rows * s.cols - s.totalMines ∧
      checkWin s = ({ s with gameWon := true }, true)) ∨
    ((revealedNonMineCount s : ℤ) ≠ s.rows * s.cols - s.totalMines ∧
      checkWin s = (s, false)) := by
  unfold checkWin
  dsimp only
  rw [revealedCount_loop_eq]
  by_cases h : (revealedNonMineCount s : ℤ) = s.rows * s.cols - s.totalMines
  · exact Or.inl ⟨h, by rw [if_pos h]⟩
  · exact Or.inr ⟨h, by rw [if_neg h]⟩

/-- Changing only the flag grid changes neither the win count nor the
decision of `checkWin`. -/
theorem checkWin_flag_independent (s : Minesweeper) (fl : ℤ × ℤ → Bool) :
    (checkWin { s with flagged := fl }).2 = (checkWin s).2 := by
  have hc : ((revealedNonMineCount { s with flagged := fl } : ℤ)
      = ({ s with flagged := fl } : Minesweeper).rows
        * ({ s with flagged := fl } : Minesweeper).cols
        - ({ s with flagged := fl } : Minesweeper).totalMines)
      ↔ ((revealedNonMineCount s : ℤ) = s.rows * s.cols - s.totalMines) := Iff.rfl
  rcases checkWin_cases { s with flagged := fl } with ⟨h1, h2⟩ | ⟨h1, h2⟩ <;>
    rcases checkWin_cases s with ⟨h3, h4⟩ | ⟨h3, h4⟩ <;> rw [h2, h4] <;>
      first
        | rfl
        | exact absurd (hc.mp h1) h3
        | exact absurd (hc.mpr h3) h1

/-- Revealing an in-bounds, unrevealed, unflagged mine marks exactly that
cell revealed and raises `gameOver`; nothing else changes and there is no
cascade. -/
theorem revealCell_mine_eq (s : Minesweeper) (x y : ℤ) (hv : s.isValid x y)
    (hr : s.revealed (x, y) = false) (hfl : s.flagged (x, y) = false)
    (hm : s.grid (x, y) = -1) :
    revealCell s x y
      = { s with revealed := Function.update s.revealed (x, y) true, gameOver := true } := by
  unfold revealCell
  have h1 : 1 ≤ unrevealedCount s := one_le_unrevealedCount s x y hv hr
  obtain ⟨f, hf⟩ : ∃ f, unrevealedCount s = f + 1 := ⟨unrevealedCount s - 1, by omega⟩
  rw [hf, revealFuel, if_neg (by simp [hv, hr, hfl]), if_pos hm]
  rfl

/-- The guarded no-op of `revealCell`. -/
theorem revealCell_noop (s : Minesweeper) (x y : ℤ)
    (h : ¬ s.isValid x y ∨ s.revealed (x, y) = true ∨ s.flagged (x, y) = true) :
    revealCell s x y = s := by
  unfold revealCell
  cases hμ : unrevealedCount s with
  | zero => rfl
  | succ f => rw [revealFuel, if_pos h]

/-- The guarded no-op of `toggleFlag`. -/
theorem toggleFlag_noop (s : Minesweeper) (x y : ℤ)
    (h : ¬ s.isValid x y ∨ s.revealed (x, y) = true) :
    toggleFlag s x y = s := by
  unfold toggleFlag
  rw [if_pos h]

/-- `toggleFlag` changes nothing but the flag grid. -/
theorem toggleFlag_fields (s : Minesweeper) (x y : ℤ) :
    (toggleFlag s x y).rows = s.rows ∧ (toggleFlag s x y).cols = s.cols ∧
    (toggleFlag s x y).totalMines = s.totalMines ∧ (toggleFlag s x y).grid = s.grid ∧
    (toggleFlag s x y).revealed = s.revealed ∧
    (toggleFlag s x y).gameOver = s.gameOver ∧ (toggleFlag s x y).gameWon = s.gameWon := by
  unfold toggleFlag
  split <;> exact ⟨rfl, rfl, rfl, rfl, rfl, rfl, rfl⟩

/-- `toggleFlag` flips flags only at unrevealed cells. -/
theorem toggleFlag_flag_change (s : Minesweeper) (x y : ℤ) (e : ℤ × ℤ)
    (hne : (toggleFlag s x y).flagged e ≠ s.flagged e) :
    e = (x, y) ∧ s.revealed e = false := by
  unfold toggleFlag at hne
  by_cases hg : ¬ s.isValid x y ∨ s.revealed (x, y) = true
  · rw [if_pos hg] at hne
    exact absurd rfl hne
  · rw [if_neg hg] at hne
    push_neg at hg
    rcases eq_or_ne e (x, y) with rfl | hee
    · exact ⟨rfl, by simpa using hg.2⟩
    · rw [show ({ s with flagged := Function.update s.flagged (x, y) (! s.flagged (x, y)) }
          : Minesweeper).flagged e = Function.update s.flagged (x, y) (! s.flagged (x, y)) e
          from rfl, Function.update_noteq hee] at hne
      exact absurd rfl hne

/-- Each operation preserves the `gameWon` flag once set. -/
theorem applyOp_gameWon_mono (s : Minesweeper) (op : Op) (h : s.gameWon = true) :
    (applyOp s op).gameWon = true := by
  cases op with
  | reveal x y =>
    exact ((revealFuel_fields (unrevealedCount s) s x y).2.2.2.2.2).trans h
  | flag x y => exact ((toggleFlag_fields s x y).2.2.2.2.2.2).trans h
  | win =>
    show (checkWin s).1.gameWon = true
    rcases checkWin_cases s with ⟨h1, h2⟩ | ⟨h1, h2⟩
    · rw [h2]
    · rw [h2]
      exact h

/-- Each operation preserves the `gameOver` flag once set. -/
theorem applyOp_gameOver_mono (s : Minesweeper) (op : Op) (h : s.gameOver = true) :
    (applyOp s op).gameOver = true := by
  cases op with
  | reveal x y => exact revealFuel_gameOver_mono (unrevealedCount s) s x y h
  | flag x y => exact ((toggleFlag_fields s x y).2.2.2.2.2.1).trans h
  | win =>
    show (checkWin s).1.gameOver = true
    rcases checkWin_cases s with ⟨h1, h2⟩ | ⟨h1, h2⟩ <;> rw [h2] <;> exact h

theorem runOps_gameWon_mono (s : Minesweeper) (l : List Op) (h : s.gameWon = true) :
    (runOps s l).gameWon = true :=
  foldl_invariant (fun (t : Minesweeper) => t.gameWon = true) applyOp l s h
    fun t op _ ht => applyOp_gameWon_mono t op ht

theorem runOps_gameOver_mono (s : Minesweeper) (l : List Op) (h : s.gameOver = true) :
    (runOps s l).gameOver = true :=
  foldl_invariant (fun (t : Minesweeper) => t.gameOver = true) applyOp l s h
    fun t op _ ht => applyOp_gameOver_mono t op ht

/-- The flood fill keeps revealed and flagged disjoint: it never reveals a
flagged cell and never touches flags. -/
theorem revealFuel_noRevFlag (f : ℕ) (s : Minesweeper) (x y : ℤ) (h : noRevFlag s) :
    noRevFlag (revealFuel f s x y) := by
  induction f generalizing s x y with
  | zero => exact h
  | succ f ih =>
    rw [revealFuel]
    split
    · exact h
    rename_i hguard
    push_neg at hguard
    obtain ⟨hv, hnr, hnf⟩ := hguard
    have hmark : noRevFlag (markRevealed s x y) := by
      intro e he
      rcases eq_or_ne e (x, y) with rfl | hne
      · have : (markRevealed s x y).flagged (x, y) = s.flagged (x, y) := rfl
        rw [this] at he
        exact hnf he.2
      · rw [markRevealed_revealed_other s x y hne] at he
        exact h e he
    split
    · exact fun e he => hmark e he
    split
    · exact foldl_invariant noRevFlag _ _ _ hmark fun t d _ ht => ih t _ _ ht
    · exact hmark

/-- Every operation keeps revealed and flagged disjoint. -/
theorem applyOp_noRevFlag (s : Minesweeper) (op : Op) (h : noRevFlag s) :
    noRevFlag (applyOp s op) := by
  cases op with
  | reveal x y => exact revealFuel_noRevFlag (unrevealedCount s) s x y h
  | flag x y =>
    intro e he2
    have he : (toggleFlag s x y).revealed e = true ∧ (toggleFlag s x y).flagged e = true := he2
    by_cases hch : (toggleFlag s x y).flagged e = s.flagged e
    · rw [hch] at he
      have hrev : (toggleFlag s x y).revealed = s.revealed := (toggleFlag_fields s x y).2.2.2.2.1
      rw [hrev] at he
      exact h e he
    · obtain ⟨rfl, hunrev⟩ := toggleFlag_flag_change s x y e hch
      have hrev : (toggleFlag s x y).revealed = s.revealed := (toggleFlag_fields s x y).2.2.2.2.1
      rw [hrev, hunrev] at he
      cases he.1
  | win =>
    intro e he
    rcases checkWin_cases s with ⟨h1, h2⟩ | ⟨h1, h2⟩ <;>
      rw [show (applyOp s Op.win) = (checkWin s).1 from rfl, h2] at he <;>
      exact h e he

theorem runOps_noRevFlag (s : Minesweeper) (l : List Op) (h : noRevFlag s) :
    noRevFlag (runOps s l) :=
  foldl_invariant noRevFlag applyOp l s h fun t op _ ht => applyOp_noRevFlag t op ht

/-- Reading the abstract status. -/
theorem status_eq_inProgress_iff (s : Minesweeper) :
    status s = GameStatus.InProgress ↔ (s.gameWon = false ∧ s.gameOver = false) := by
  unfold status
  rcases hw : s.gameWon with _ | _ <;> rcases ho : s.gameOver with _ | _ <;> simp

theorem status_eq_won_iff (s : Minesweeper) : status s = GameStatus.Won ↔ s.gameWon = true := by
  unfold status
  rcases hw : s.gameWon with _ | _ <;> rcases ho : s.gameOver with _ | _ <;> simp

/-- Status monotonicity facts behind the amended C8. -/
theorem status_runOps_facts :
    (∀ (r c m : ℤ) (rnd : ℕ → ℕ) (n : ℕ),
      status (constructAfter r c m rnd n) = GameStatus.InProgress) ∧
    (∀ (s : Minesweeper) (l : List Op), status s ≠ GameStatus.InProgress →
      status (runOps s l) ≠ GameStatus.InProgress) ∧
    (∀ (s : Minesweeper) (l : List Op), status s = GameStatus.Won →
      status (runOps s l) = GameStatus.Won) := by
  refine ⟨fun r c m rnd n => ?_, fun s l hs => ?_, fun s l hs => ?_⟩
  · rw [status_eq_inProgress_iff]
    exact ⟨rfl, rfl⟩
  · intro hcontra
    rw [status_eq_inProgress_iff] at hcontra
    obtain ⟨hw, ho⟩ := hcontra
    apply hs
    rw [status_eq_inProgress_iff]
    constructor
    · rcases hw0 : s.gameWon with _ | _
      · rfl
      · rw [runOps_gameWon_mono s l hw0] at hw
        cases hw
    · rcases ho0 : s.gameOver with _ | _
      · rfl
      · rw [runOps_gameOver_mono s l ho0] at ho
        cases ho
  · rw [status_eq_won_iff] at hs ⊢
    exact runOps_gameWon_mono s l hs

/-! ## The claims -/

/-- C1, counterexample.  The claim asserts termination for **every** random
stream; the constantly-zero stream on a 1×3 board with 2 mines places its
first mine at (0, 0) and then resamples (0, 0) forever, so the loop never
terminates even though `0 < mineCount < rows·cols`. -/
theorem C1_counterexample :
    (0 : ℤ) < 2 ∧ (2 : ℤ) < 1 * 3 ∧ ¬ placeTerminates 1 3 2 (fun _ => 0) := by
  refine ⟨by norm_num, by norm_num, ?_⟩
  have hstate : ∀ n : ℕ, 1 ≤ n → placeState 1 3 2 (fun _ => 0) n
      = (Function.update (fun _ => (0 : ℤ)) ((0 : ℤ), (0 : ℤ)) (-1), 1) := by
    intro n hn
    induction n with
    | zero => omega
    | succ n ih =>
      by_cases h0 : n = 0
      · subst h0
        simp only [placeState]
        norm_num
      · rw [show n + 1 = n + 1 from rfl]
        simp only [placeState]
        rw [ih (by omega)]
        rw [if_pos (by norm_num)]
        rw [if_neg (by simp)]
  rintro ⟨n, hn⟩
  rcases Nat.eq_zero_or_pos n with rfl | hpos
  · rw [show ((placeState 1 3 2 (fun _ => 0) 0).2 : ℤ) = 0 from rfl] at hn
    norm_num at hn
  · rw [hstate n hpos] at hn
    norm_num at hn

/-- C1 (amended): for every valid configuration and every **fair** random
stream (every cell sampled at arbitrarily late iterations — true with
probability 1 of uniform sampling) the placement loop terminates, and at any
iteration at which the loop has terminated the grid holds exactly
`mineCount` mines (the guard never marks an already-mined cell twice). -/
theorem C1_amended (r c m : ℤ) (rnd : ℕ → ℕ) (hr : 0 < r) (hc : 0 < c) (hm0 : 0 < m)
    (hmlt : m < r * c) (hfair : FairStream r c rnd) :
    placeTerminates r c m rnd ∧
    ∀ n, ((placeState r c m rnd n).2 : ℤ) = m →
      (mineCard r c (placeState r c m rnd n).1 : ℤ) = m := by
  refine ⟨placeTerminates_of_fair r c m rnd hr hc hm0 hmlt hfair, fun n hn => ?_⟩
  rw [Nat.cast_inj.mpr (placeState_inv r c m rnd hr hc hm0.le n).1]
  exact hn

/-- The stream `n ↦ n / 2` is fair on a 1×2 board: iteration `k` samples
row `k % 1 = 0` and column `k % 2`. -/
theorem fairStream_example : FairStream 1 2 (fun n => n / 2) := by
  intro x y hv n
  obtain ⟨hx0, hx1, hy0, hy1⟩ := hv
  refine ⟨2 * n + y.toNat, by omega, by omega, ?_⟩
  show ((((2 * (2 * n + y.toNat) + 1) / 2 : ℕ) : ℤ)) % 2 = y
  omega

/-- C1 witness: the amended statement applied to the 1×2 board, one mine,
and the fair stream `n ↦ n / 2`. -/
theorem C1_witness :
    (0 : ℤ) < 1 ∧ (0 : ℤ) < 2 ∧ (0 : ℤ) < 1 ∧ (1 : ℤ) < 1 * 2 ∧
    FairStream 1 2 (fun n => n / 2) ∧
    (placeTerminates 1 2 1 (fun n => n / 2) ∧
      ∀ n, ((placeState 1 2 1 (fun n => n / 2) n).2 : ℤ) = 1 →
        (mineCard 1 2 (placeState 1 2 1 (fun n => n / 2) n).1 : ℤ) = 1) :=
  ⟨by norm_num, by norm_num, by norm_num, by norm_num, fairStream_example,
    C1_amended 1 2 1 (fun n => n / 2) (by norm_num) (by norm_num) (by norm_num)
      (by norm_num) fairStream_example⟩

/-- C2: after construction, every in-bounds non-mine cell stores exactly the
number of mines among its in-bounds 8-neighbours; out-of-bounds neighbours
contribute nothing (the count ranges over board cells only). -/
theorem C2_adjacency (rows cols mines : ℤ) (rnd : ℕ → ℕ) (n : ℕ) (x y : ℤ)
    (hv : validPos rows cols x y)
    (hnm : (constructAfter rows cols mines rnd n).grid (x, y) ≠ -1) :
    (constructAfter rows cols mines rnd n).grid (x, y)
      = (mineNeighborCount rows cols (constructAfter rows cols mines rnd n).grid x y : ℤ) :=
  calculateNumbers_correct rows cols _ x y hv hnm

/-- C2 witness: the cell (0, 1) of the concrete 1×3 board stores 1. -/
theorem C2_witness :
    validPos 1 3 0 1 ∧ board02.grid (0, 1) ≠ -1 ∧
    board02.grid (0, 1) = (mineNeighborCount 1 3 board02.grid 0 1 : ℤ) :=
  ⟨by decide, by decide, C2_adjacency 1 3 1 (fun n => 2 * n) 1 0 1 (by decide) (by decide)⟩

/-- C3: revealing an in-bounds, unrevealed, unflagged zero cell reveals
exactly the cascade-reachable zero region plus its numbered rim (`RevealSet`,
whose hops re-check the reveal guards, so the cascade stops at revealed,
flagged, out-of-bounds and non-zero cells), reveals nothing else, and — on a
well-formed grid — never reveals a mine, leaving `gameOver` unchanged. -/
theorem C3_cascade (s : Minesweeper) (x y : ℤ) (hstart : zeroFree s (x, y))
    (hsafe : zeroSafe s) :
    (∀ c, (revealCell s x y).revealed c = true ↔
      (s.revealed c = true ∨ RevealSet s (x, y) c)) ∧
    (revealCell s x y).gameOver = s.gameOver := by
  obtain ⟨hgo, hsound⟩ := revealCell_sound hstart hsafe
  refine ⟨fun c => ⟨hsound c, ?_⟩, hgo⟩
  rintro (hrev | hr | hb)
  · exact revealFuel_revealed_mono (unrevealedCount s) s x y c hrev
  · exact reach_revealed hstart hr
  · exact border_revealed hstart hb

/-- C3 witness: the cascade statement applied to the zero cell (0, 0) of the
concrete 1×3 board. -/
theorem C3_witness :
    zeroFree board02 (0, 0) ∧ zeroSafe board02 ∧
    ((∀ c, (revealCell board02 0 0).revealed c = true ↔
      (board02.revealed c = true ∨ RevealSet board02 (0, 0) c)) ∧
    (revealCell board02 0 0).gameOver = board02.gameOver) :=
  ⟨by decide, by decide, C3_cascade board02 0 0 (by decide) (by decide)⟩

/-- C4: revealing an in-bounds, unrevealed, unflagged mine marks exactly that
cell revealed and sets the loss flag (`gameOver`, i.e. status Lost in any
not-yet-won state); no other cell changes, so there is no cascade. -/
theorem C4_mine (s : Minesweeper) (x y : ℤ) (hv : s.isValid x y)
    (hr : s.revealed (x, y) = false) (hfl : s.flagged (x, y) = false)
    (hm : s.grid (x, y) = -1) :
    revealCell s x y
      = { s with revealed := Function.update s.revealed (x, y) true, gameOver := true } ∧
    (s.gameWon = false → status (revealCell s x y) = GameStatus.Lost) := by
  have h := revealCell_mine_eq s x y hv hr hfl hm
  refine ⟨h, fun hgw => ?_⟩
  rw [h]
  unfold status
  dsimp only
  rw [hgw]
  simp

/-- C4 witness: revealing the mine at (0, 1) of the concrete 1×2 board. -/
theorem C4_witness :
    board01.isValid 0 1 ∧ board01.revealed (0, 1) = false ∧
    board01.flagged (0, 1) = false ∧ board01.grid (0, 1) = -1 ∧
    (revealCell board01 0 1
      = { board01 with revealed := Function.update board01.revealed (0, 1) true, gameOver := true } ∧
    (board01.gameWon = false → status (revealCell board01 0 1) = GameStatus.Lost)) :=
  ⟨by decide, by decide, by decide, by decide,
    C4_mine board01 0 1 (by decide) (by decide) (by decide) (by decide)⟩

/-- C5: `checkWin` returns true exactly when the number of revealed non-mine
cells equals `rows·cols − mineCount`, in which case it sets `gameWon` (status
Won); otherwise it returns false and changes nothing.  The flag grid never
influences the returned value — in particular a state with every mine
flagged but a hidden non-mine cell still yields false. -/
theorem C5_win (s : Minesweeper) :
    ((checkWin s).2 = true ↔ (revealedNonMineCount s : ℤ) = s.rows * s.cols - s.totalMines) ∧
    ((checkWin s).2 = true →
      (checkWin s).1.gameWon = true ∧ status (checkWin s).1 = GameStatus.Won) ∧
    ((checkWin s).2 = false → (checkWin s).1 = s) ∧
    (∀ fl : ℤ × ℤ → Bool, (checkWin { s with flagged := fl }).2 = (checkWin s).2) := by
  have hfl := checkWin_flag_independent s
  rcases checkWin_cases s with ⟨h1, h2⟩ | ⟨h1, h2⟩
  · refine ⟨?_, ?_, ?_, hfl⟩
    · rw [h2]
      exact ⟨fun _ => h1, fun _ => rfl⟩
    · rw [h2]
      exact fun _ => ⟨rfl, by rw [status_eq_won_iff]⟩
    · rw [h2]
      intro hf
      simp at hf
  · refine ⟨?_, ?_, ?_, hfl⟩
    · rw [h2]
      constructor
      · intro ht
        simp at ht
      · intro hc
        exact absurd hc h1
    · rw [h2]
      intro ht
      simp at ht
    · rw [h2]
      exact fun _ => rfl

/-- C5 witness: on the 1×2 board with its safe cell revealed, `checkWin`
returns true and sets `gameWon`; on the fresh board with the mine flagged
but the safe cell hidden, it returns false. -/
theorem C5_witness :
    ((checkWin (revealCell board01 0 0)).2 = true ∧
      (checkWin (revealCell board01 0 0)).1.gameWon = true) ∧
    (checkWin (toggleFlag board01 0 1)).2 = false :=
  ⟨⟨by decide, ((C5_win (revealCell board01 0 0)).2.1 (by decide)).1⟩, by decide⟩

/-- C6, counterexample.  The claim says invalid construction parameters fail
with an `InvalidConfig` error and produce no board; in the code there is no
error path at all — `getDifficultySettings` silently replaces the invalid
custom settings (0, 0, 0) by the beginner configuration (9, 9, 10), a valid
board configuration. -/
theorem C6_counterexample :
    getDifficultySettings 4 0 0 0 = (9, 9, 10) ∧ (0 : ℤ) < 9 ∧ (10 : ℤ) < 9 * 9 :=
  ⟨by decide, by decide, by decide⟩

/-- C6 (amended): every configuration reaching the `Minesweeper` constructor
from the difficulty prompt is valid — invalid menu choices and invalid
custom settings (rows ≤ 0, cols ≤ 0, mines ≤ 0 or mines ≥ rows·cols) are
replaced by the beginner configuration rather than rejected with an error. -/
theorem C6_amended (choice r c m : ℤ) :
    0 < (getDifficultySettings choice r c m).1 ∧
    0 < (getDifficultySettings choice r c m).2.1 ∧
    0 < (getDifficultySettings choice r c m).2.2 ∧
    (getDifficultySettings choice r c m).2.2
      < (getDifficultySettings choice r c m).1 * (getDifficultySettings choice r c m).2.1 := by
  unfold getDifficultySettings
  split
  · norm_num
  split
  · norm_num
  split
  · norm_num
  split
  · split
    · norm_num
    · rename_i hvalid
      push_neg at hvalid
      obtain ⟨q1, q2, q3, q4⟩ := hvalid
      exact ⟨q1, q2, q3, q4⟩
  · norm_num

/-- C7: reveal on out-of-bounds, revealed, or flagged cells, and flag on
out-of-bounds or revealed cells, leave the whole state unchanged (and, being
total functions, report no error). -/
theorem C7_noop (s : Minesweeper) (x y : ℤ) :
    ((¬ s.isValid x y ∨ s.revealed (x, y) = true ∨ s.flagged (x, y) = true) →
      revealCell s x y = s) ∧
    ((¬ s.isValid x y ∨ s.revealed (x, y) = true) → toggleFlag s x y = s) :=
  ⟨revealCell_noop s x y, toggleFlag_noop s x y⟩

/-- C7 witness: the out-of-bounds coordinate (5, 0) on the concrete board. -/
theorem C7_witness :
    revealCell board01 5 0 = board01 ∧ toggleFlag board01 5 0 = board01 :=
  ⟨(C7_noop board01 5 0).1 (Or.inl (by decide)),
    (C7_noop board01 5 0).2 (Or.inl (by decide))⟩

/-- C8, counterexample.  On the 1×2 board, revealing the mine yields status
Lost; the engine does not gate further operations, so revealing the safe
cell and calling `checkWin` afterwards flips the status to Won — the status
does transition out of a terminal state. -/
theorem C8_counterexample :
    status lostState = GameStatus.Lost ∧
    status (runOps lostState [Op.reveal 0 0, Op.win]) = GameStatus.Won :=
  ⟨by decide, by decide⟩

/-- C8 (amended): the status starts as InProgress, and the two terminal
flags are individually monotone, so the status never returns to InProgress
and the Won status is absorbing; but because post-terminal calls are not
gated, a Lost game can still transition to Won (see the counterexample). -/
theorem C8_amended :
    (∀ (r c m : ℤ) (rnd : ℕ → ℕ) (n : ℕ),
      status (constructAfter r c m rnd n) = GameStatus.InProgress) ∧
    (∀ (s : Minesweeper) (l : List Op), status s ≠ GameStatus.InProgress →
      status (runOps s l) ≠ GameStatus.InProgress) ∧
    (∀ (s : Minesweeper) (l : List Op), status s = GameStatus.Won →
      status (runOps s l) = GameStatus.Won) :=
  status_runOps_facts

/-- C8 witness: a won state stays Won over a further reveal. -/
theorem C8_witness :
    status wonState = GameStatus.Won ∧
    status (runOps wonState [Op.reveal 0 1]) = GameStatus.Won :=
  ⟨by decide, C8_amended.2.2 wonState [Op.reveal 0 1] (by decide)⟩

/-- C9: in every state reachable from a freshly constructed board by reveal,
flag and win-check operations, no cell is simultaneously revealed and
flagged. -/
theorem C9_invariant (r c m : ℤ) (rnd : ℕ → ℕ) (n : ℕ) (l : List Op) (e : ℤ × ℤ) :
    ¬((runOps (constructAfter r c m rnd n) l).revealed e = true ∧
      (runOps (constructAfter r c m rnd n) l).flagged e = true) :=
  runOps_noRevFlag (constructAfter r c m rnd n) l (fun _ he => nomatch he.1) e

/-- C10, counterexample.  After winning the 1×2 board (without hitting a
mine) the status is Won ≠ InProgress, yet `isGameOver()` returns false: it
returns only the `gameOver` loss flag. -/
theorem C10_counterexample :
    isGameOver wonState = false ∧ status wonState ≠ GameStatus.InProgress :=
  ⟨by decide, by decide⟩

/-- C10 (amended): `isGameOver()` tracks only the loss flag — it becomes
true when a mine is revealed, and `checkWin` (winning) never changes it, so
after a win reached without revealing a mine it stays false. -/
theorem C10_amended :
    (∀ (s : Minesweeper) (x y : ℤ), s.isValid x y → s.revealed (x, y) = false →
      s.flagged (x, y) = false → s.grid (x, y) = -1 →
        isGameOver (revealCell s x y) = true) ∧
    (∀ s : Minesweeper, isGameOver (checkWin s).1 = isGameOver s) := by
  constructor
  · intro s x y hv hr hfl hm
    show (revealCell s x y).gameOver = true
    rw [revealCell_mine_eq s x y hv hr hfl hm]
  · intro s
    show (checkWin s).1.gameOver = s.gameOver
    rcases checkWin_cases s with ⟨h1, h2⟩ | ⟨h1, h2⟩ <;> rw [h2]

/-- C10 witness: revealing the mine of the 1×2 board sets `isGameOver`. -/
theorem C10_witness : isGameOver (revealCell board01 0 1) = true :=
  C10_amended.1 board01 0 1 (by decide) (by decide) (by decide) (by decide)
